/-
Verification of the ezGPX core specification: track data model, GPX codec,
geometry / kinematics, simplification (Ramer-Douglas-Peucker) and GPS-error
cleanup.  The library's Python sources are not part of this tree, so every
definition below is modelled from the specification's own description of the
components (see the doc comment of each definition).
-/
import Mathlib

namespace EzGPX

/-- Modelled from the spec: a GPS `Point` (§3).  Latitude and longitude are
degrees; here they are represented in exact fixed-point micro-degrees
(integers), which realises the spec's 1e-6-degree tolerance exactly.
Elevation (millimeters) and timestamp (epoch seconds) are optional, and
extensions are an opaque key/value bag. -/
structure Point where
  lat : Int
  lon : Int
  ele : Option Int
  time : Option Int
  extensions : List (String × String)
deriving Repr, DecidableEq

/-- Modelled from the spec: document `Metadata` (§3): name, description,
author, timestamp, optional bounds. -/
structure Metadata where
  name : Option String
  desc : Option String
  author : Option String
  time : Option Int
deriving Repr, DecidableEq

/-- Modelled from the spec: a `Track` (§3): ordered sequence of Segments
(each an ordered sequence of Points) plus a name and optional type tag. -/
structure Track where
  name : Option String
  typeTag : Option String
  segs : List (List Point)
deriving Repr, DecidableEq

/-- Modelled from the spec: the GPX `Document` root aggregate (§3): version
tag, creator string, optional Metadata, waypoints, routes, tracks,
extensions bag. -/
structure GpxDoc where
  version : String
  creator : String
  metadata : Option Metadata
  waypoints : List Point
  routes : List (List Point)
  tracks : List Track
  extensions : List (String × String)
deriving Repr, DecidableEq

/-- All points of a document, in document order (waypoints, then route
points, then track points), as the spec's flatten-to-points accessor. -/
def GpxDoc.allPoints (d : GpxDoc) : List Point :=
  d.waypoints ++ d.routes.flatten ++ (d.tracks.map (fun t => t.segs.flatten)).flatten

/-! ### Removal operations (§4.2) -/

/-- Clear the elevation field of one point. -/
def Point.clearEle (p : Point) : Point := { p with ele := none }

/-- Clear the time field of one point. -/
def Point.clearTime (p : Point) : Point := { p with time := none }

/-- Clear the extensions bag of one point. -/
def Point.clearExt (p : Point) : Point := { p with extensions := [] }

/-- Apply a point transformation to every point of a document. -/
def GpxDoc.mapPoints (f : Point → Point) (d : GpxDoc) : GpxDoc :=
  { d with
    waypoints := d.waypoints.map f
    routes := d.routes.map (List.map f)
    tracks := d.tracks.map (fun t => { t with segs := t.segs.map (List.map f) }) }

/-- Modelled from the spec: `remove_metadata` clears the document metadata
in place (§4.2). -/
def removeMetadata (d : GpxDoc) : GpxDoc := { d with metadata := none }

/-- Modelled from the spec: `remove_elevation` clears the elevation field on
every point of the document (§4.2). -/
def removeElevation (d : GpxDoc) : GpxDoc := GpxDoc.mapPoints Point.clearEle d

/-- Modelled from the spec: `remove_time` clears the timestamp field on
every point of the document (§4.2). -/
def removeTime (d : GpxDoc) : GpxDoc := GpxDoc.mapPoints Point.clearTime d

/-- Modelled from the spec: `remove_extensions` clears the extensions bag on
the document and on every point (§4.2). -/
def removeExtensions (d : GpxDoc) : GpxDoc :=
  { GpxDoc.mapPoints Point.clearExt d with extensions := [] }

/-! ### Aggregate min/max over derived series (§4.4) -/

/-- Merge the running aggregate with the next (possibly absent) sample. -/
def mergeOpt (op : ℚ → ℚ → ℚ) : Option ℚ → Option ℚ → Option ℚ
  | none, x => x
  | some a, none => some a
  | some a, some b => some (op a b)

/-- One streaming pass of an aggregate over a derived series. -/
def seriesFold (op : ℚ → ℚ → ℚ) (l : List (Option ℚ)) : Option ℚ :=
  l.foldl (mergeOpt op) none

/-- Modelled from the spec: aggregate minimum of a per-point derived series;
`none` entries are ignored and an all-`none` series yields `none` (§4.4).
Computed by a single left fold, as a streaming implementation would. -/
def seriesMin (l : List (Option ℚ)) : Option ℚ := seriesFold min l

/-- Modelled from the spec: aggregate maximum of a per-point derived series;
`none` entries are ignored and an all-`none` series yields `none` (§4.4). -/
def seriesMax (l : List (Option ℚ)) : Option ℚ := seriesFold max l

/-! ### Geo Math (§4.1) -/

/-- Fixed Earth-radius constant (meters), as required by §4.1. -/
def earthRadius : ℝ := 6371000

/-- Convert a micro-degree integer coordinate to radians. -/
noncomputable def radOfMicroDeg (x : Int) : ℝ :=
  (x : ℝ) * Real.pi / 180000000

/-- Modelled from the spec: `distance(a, b)` (§4.1), the great-circle
(haversine) distance between two points using the fixed Earth radius:
`2 R asin (sqrt (sin²(Δφ/2) + cos φa cos φb sin²(Δλ/2)))`. -/
noncomputable def distance (a b : Point) : ℝ :=
  2 * earthRadius * Real.arcsin (Real.sqrt (
    Real.sin ((radOfMicroDeg b.lat - radOfMicroDeg a.lat) / 2) ^ 2 +
    Real.cos (radOfMicroDeg a.lat) * Real.cos (radOfMicroDeg b.lat) *
      Real.sin ((radOfMicroDeg b.lon - radOfMicroDeg a.lon) / 2) ^ 2))

/-- Modelled from the spec: `time_delta(a, b)` (§4.1): `b.timestamp -
a.timestamp` if both present, else `none`; negative values are preserved. -/
def timeDelta (a b : Point) : Option Int :=
  match a.time, b.time with
  | some ta, some tb => some (tb - ta)
  | _, _ => none

/-! ### Kinematics Engine (§4.4) -/

/-- Wall-clock seconds elapsed on the interval from `a` to `b` (0 when a
timestamp is missing). -/
noncomputable def elapsedBetween (a b : Point) : ℝ :=
  ((timeDelta a b).getD 0 : Int)

/-- Modelled from the spec: `speed(i)` (§4.4), derived from the distance and
time delta of the interval ending at point `i`; undefined when either
timestamp is missing or the time delta is not positive. -/
noncomputable def intervalSpeed (a b : Point) : Option ℝ :=
  match timeDelta a b with
  | some dt => if 0 < dt then some (distance a b / (dt : ℝ)) else none
  | none => none

/-- Modelled from the spec: an interval counts as stopped when its speed is
below the threshold, zero, or undefined (§4.4). -/
def stoppedInterval (thr : ℝ) (a b : Point) : Prop :=
  match intervalSpeed a b with
  | none => True
  | some v => v ≤ 0 ∨ v < thr

open Classical in
/-- Modelled from the spec: `moving_time` (§4.4): the sum of the elapsed
time of every consecutive interval that is not stopped. -/
noncomputable def movingTime (thr : ℝ) : List Point → ℝ
  | a :: b :: rest =>
    (if stoppedInterval thr a b then 0 else elapsedBetween a b) +
      movingTime thr (b :: rest)
  | _ => 0

open Classical in
/-- Modelled from the spec: `stopped_time` (§4.4): the sum of the elapsed
time of every consecutive stopped interval. -/
noncomputable def stoppedTime (thr : ℝ) : List Point → ℝ
  | a :: b :: rest =>
    (if stoppedInterval thr a b then elapsedBetween a b else 0) +
      stoppedTime thr (b :: rest)
  | _ => 0

/-- Modelled from the spec: `total_elapsed_time` (§4.4): stop time minus
start time, i.e. the timestamp of the last point minus that of the first. -/
noncomputable def totalElapsedTime (seg : List Point) : ℝ :=
  match seg.head?, seg.getLast? with
  | some a, some z => ((z.time.getD 0 : Int) : ℝ) - ((a.time.getD 0 : Int) : ℝ)
  | _, _ => 0

/-! ### Simplification & Cleanup Engine: GPS-error removal (§4.5) -/

/-- Whether the segment-implied speed of the interval from `a` to `b`
exceeds the threshold `thr`: the interval must have a positive time delta
`dt` and cover more distance than `thr * dt` (equivalently, for positive
`dt`, the implied speed `dist/dt` exceeds `thr`).  The distance function is
the Geo Math collaborator, passed explicitly. -/
def speedExceeds {α : Type} [LinearOrderedRing α]
    (dist : Point → Point → α) (thr : α) (a b : Point) : Bool :=
  match timeDelta a b with
  | some dt => if 0 < dt then decide (thr * (dt : α) < dist a b) else false
  | none => false

/-- Single pass of the GPS-error filter: `prev` is the original predecessor
of the head of the remaining list; the last point is always kept. -/
def removeGpsErrorsAux (ex : Point → Point → Bool) : Point → List Point → List Point
  | _, [] => []
  | _, [z] => [z]
  | prev, cur :: nxt :: rest =>
    if ex prev cur && ex cur nxt then removeGpsErrorsAux ex cur (nxt :: rest)
    else cur :: removeGpsErrorsAux ex cur (nxt :: rest)

/-- Modelled from the spec: `remove_gps_errors` (§4.5): over one Segment, a
point is flagged erroneous when both its incoming and outgoing
segment-implied speed exceed the threshold; flagged points are removed in a
single pass (the first point has no incoming interval and the last no
outgoing one, so neither is ever flagged). -/
def removeGpsErrors (ex : Point → Point → Bool) : List Point → List Point
  | [] => []
  | p :: rest => p :: removeGpsErrorsAux ex p rest

/-- Declarative form of the GPS-error filter: every interior point is kept
exactly when the neighbour triple it forms with its original predecessor
and successor is not a both-ways speed spike; the two endpoints are kept
unconditionally. -/
def removeGpsErrorsSpec (ex : Point → Point → Bool) (seg : List Point) : List Point :=
  match seg with
  | [] => []
  | [p] => [p]
  | p :: q :: rest =>
    p :: ((((p :: q :: rest).zip ((q :: rest).zip rest)).filter
        (fun t => !(ex t.1 t.2.1 && ex t.2.1 t.2.2))).map (fun t => t.2.1))
      ++ [(q :: rest).getLast (List.cons_ne_nil q rest)]

/-! ### Simplification: Ramer-Douglas-Peucker (§4.5) -/

/-- Squared chord length between the two chord endpoints, in the planar
coordinate space of the points. -/
def chordSq (a b : Point) : Int :=
  (b.lat - a.lat) ^ 2 + (b.lon - a.lon) ^ 2

/-- Squared cross product of `p - a` with the chord vector `b - a`:
equals (squared perpendicular deviation of `p` from the chord line) times
`chordSq a b`, so `devSq a b p ≤ tolSq * chordSq a b` says exactly that the
perpendicular deviation of `p` is within the tolerance whose square is
`tolSq`. -/
def devSq (a b p : Point) : Int :=
  ((b.lon - a.lon) * (p.lat - a.lat) - (b.lat - a.lat) * (p.lon - a.lon)) ^ 2

/-- First index achieving the maximal value of `f` (the spec's stable
tie-break: earliest index wins on ties), with its element; `none` on the
empty list. -/
def argmaxBy (f : Point → Int) : List Point → Option (Nat × Point)
  | [] => none
  | p :: ps =>
    match argmaxBy f ps with
    | none => some (0, p)
    | some (i, q) => if f p < f q then some (i + 1, q) else some (0, p)

/-- Fuelled core of Ramer-Douglas-Peucker on the interior points `mid` of a
chord `a`-`b`: if the point of maximum deviation (earliest on ties) is
within tolerance, every interior point is discarded; otherwise recurse on
the two sub-chords split at that point, which stays retained.  Any fuel of
at least `mid.length` yields the same result. -/
def rdpFuel (tolSq : Int) : Nat → Point → Point → List Point → List Point
  | 0, _, _, _ => []
  | fuel + 1, a, b, mid =>
    match argmaxBy (devSq a b) mid with
    | none => []
    | some (i, x) =>
      if devSq a b x ≤ tolSq * chordSq a b then []
      else rdpFuel tolSq fuel a x (mid.take i) ++
        x :: rdpFuel tolSq fuel x b (mid.drop (i + 1))

/-- Retained interior points of the chord `a`-`b` under tolerance-squared
`tolSq`. -/
def rdpAux (tolSq : Int) (a b : Point) (mid : List Point) : List Point :=
  rdpFuel tolSq mid.length a b mid

/-- Modelled from the spec: `simplify` on one Segment (§4.5): the two
endpoints are retained unconditionally and the interior is reduced by
Ramer-Douglas-Peucker with squared tolerance `tolSq`. -/
def simplifySeg (tolSq : Int) (seg : List Point) : List Point :=
  match seg with
  | [] => []
  | a :: rest =>
    match rest.getLast? with
    | none => [a]
    | some b => a :: (rdpAux tolSq a b rest.dropLast ++ [b])

/-- Modelled from the spec: document-level `simplify` (§4.5): operates
per-Segment on every track segment, never merging points across Segment
boundaries. -/
def simplify (tolSq : Int) (d : GpxDoc) : GpxDoc :=
  { d with tracks :=
      d.tracks.map fun tr => { tr with segs := tr.segs.map (simplifySeg tolSq) } }

/-! ### Format Codecs (§4.3): numeral serialization -/

/-- Little-endian base-10 digits of `n`, with explicit fuel (any fuel of at
least `n` is enough, since the argument shrinks by division by 10). -/
def natDigitsAux : Nat → Nat → List Nat
  | 0, _ => []
  | fuel + 1, n => if n = 0 then [] else n % 10 :: natDigitsAux fuel (n / 10)

/-- The decimal digit character for `d < 10`. -/
def digitChar (d : Nat) : Char := Char.ofNat (48 + d)

/-- The numeric value of a decimal digit character, if it is one. -/
def digitOf? (c : Char) : Option Nat :=
  if 48 ≤ c.toNat ∧ c.toNat ≤ 57 then some (c.toNat - 48) else none

/-- Accumulating decimal parser over a character list: fails on the first
non-digit. -/
def charsToNatAux (acc : Nat) : List Char → Option Nat
  | [] => some acc
  | c :: cs =>
    match digitOf? c with
    | some d => charsToNatAux (acc * 10 + d) cs
    | none => none

/-- Big-endian decimal character rendering of a natural number. -/
def natToChars (n : Nat) : List Char :=
  if n = 0 then ['0'] else (natDigitsAux n n).reverse.map digitChar

/-- Decimal rendering of an integer (used for the fixed-point coordinate,
elevation and timestamp values of the codec). -/
def intToString (i : Int) : String :=
  if i < 0 then ⟨'-' :: natToChars i.natAbs⟩ else ⟨natToChars i.natAbs⟩

/-- Decimal parser for an integer; `none` on the empty string, a stray
sign, or any non-digit. -/
def strToInt? (s : String) : Option Int :=
  match s.data with
  | [] => none
  | c :: cs =>
    if c = '-' then
      (if cs = [] then none else (charsToNatAux 0 cs).map (fun n => -(n : Int)))
    else (charsToNatAux 0 (c :: cs)).map (fun n => (n : Int))

/-! ### Format Codecs (§4.3): XML tree, errors, GPX encode/decode -/

/-- The serialized XML form handled by the codec: an element with a tag,
ordered attributes and ordered children, or character data.  (The byte
lexer producing this tree is the external XML library; a tree with its
attribute and element order fixed corresponds to one byte serialization
without comments or unusual whitespace.) -/
inductive Xml where
  | elem (tag : String) (attrs : List (String × String)) (children : List Xml)
  | text (s : String)

/-- Modelled from the spec: the error taxonomy of §7 relevant to the codec:
`ParseError` with a message, and `SchemaError` carrying the schema
identifier and the violated element/attribute. -/
inductive GpxErr where
  | parseErr (msg : String)
  | schemaErr (schemaId : String) (constraint : String)
deriving Repr, DecidableEq

/-- First attribute with the given name. -/
def findAttr (k : String) : List (String × String) → Option String
  | [] => none
  | (k', v) :: rest => if k' = k then some v else findAttr k rest

/-- The tag of an element node, `none` for text. -/
def headTag : Xml → Option String
  | Xml.elem t _ _ => some t
  | Xml.text _ => none

/-- Keep the element children carrying the given tag. -/
def elemsTagged (tag : String) (l : List Xml) : List Xml :=
  l.filter (fun x => headTag x = some tag)

/-- Children of the first element child with the given tag. -/
def findElemKids (tag : String) : List Xml → Option (List Xml)
  | [] => none
  | Xml.elem t _ kids :: rest => if t = tag then some kids else findElemKids tag rest
  | Xml.text _ :: rest => findElemKids tag rest

/-- The character data of an element whose children are a single text
node. -/
def textOf1 : List Xml → Option String
  | [Xml.text s] => some s
  | _ => none

/-- First child of shape `<tag>integer</tag>` whose text parses; scanned in
order, non-conforming children are skipped (lenient structural decode). -/
def childInt (tag : String) : List Xml → Option Int
  | [] => none
  | Xml.elem t _ kids :: rest =>
    if t = tag then
      match textOf1 kids with
      | some s =>
        match strToInt? s with
        | some v => some v
        | none => childInt tag rest
      | none => childInt tag rest
    else childInt tag rest
  | Xml.text _ :: rest => childInt tag rest

/-- First child of shape `<tag>text</tag>`, scanned in order. -/
def childStr (tag : String) : List Xml → Option String
  | [] => none
  | Xml.elem t _ kids :: rest =>
    if t = tag then
      match textOf1 kids with
      | some s => some s
      | none => childStr tag rest
    else childStr tag rest
  | Xml.text _ :: rest => childStr tag rest

/-- A conforming extension child `<key>value</key>` as a pair. -/
def extPair? : Xml → Option (String × String)
  | Xml.elem key _ [Xml.text v] => some (key, v)
  | _ => none

/-- The opaque key/value bag of the first `extensions` child: conforming
children become pairs, anything else is dropped. -/
def childExts : List Xml → List (String × String)
  | [] => []
  | Xml.elem t _ kids :: rest =>
    if t = "extensions" then kids.filterMap extPair?
    else childExts rest
  | Xml.text _ :: rest => childExts rest

/-- Encoding of one extension pair. -/
def extKid (kv : String × String) : Xml := Xml.elem kv.1 [] [Xml.text kv.2]

/-- Encoding of an optional extensions bag (omitted when empty). -/
def optExts : List (String × String) → List Xml
  | [] => []
  | kv :: rest => [Xml.elem "extensions" [] ((kv :: rest).map extKid)]

/-- Encoding of an optional integer-valued child element. -/
def optIntElem (tag : String) : Option Int → List Xml
  | none => []
  | some v => [Xml.elem tag [] [Xml.text (intToString v)]]

/-- Encoding of an optional text child element. -/
def optStrElem (tag : String) : Option String → List Xml
  | none => []
  | some s => [Xml.elem tag [] [Xml.text s]]

/-- Modelled from the spec: deterministic GPX encoding of one point (§4.3):
fixed attribute order `lat`, `lon`, then the optional `ele`, `time` and
`extensions` children in schema order. -/
def encodePoint (tag : String) (p : Point) : Xml :=
  Xml.elem tag [("lat", intToString p.lat), ("lon", intToString p.lon)]
    (optIntElem "ele" p.ele ++ optIntElem "time" p.time ++ optExts p.extensions)

/-- Modelled from the spec: structural decode of one point element (§4.3):
the `lat`/`lon` attributes are required and must parse (else `ParseError`);
`ele`, `time` and `extensions` children are read leniently and unknown
children are ignored. -/
def decodePoint (x : Xml) : Except GpxErr Point :=
  match x with
  | Xml.elem _ attrs kids =>
    match findAttr "lat" attrs, findAttr "lon" attrs with
    | some slat, some slon =>
      match strToInt? slat, strToInt? slon with
      | some la, some lo =>
        .ok ⟨la, lo, childInt "ele" kids, childInt "time" kids, childExts kids⟩
      | _, _ => .error (.parseErr "malformed coordinate attribute")
    | _, _ => .error (.parseErr "missing coordinate attribute")
  | Xml.text _ => .error (.parseErr "expected an element")

/-- Decode every entry of a list, failing on the first error. -/
def decodeAll {A : Type} (f : Xml → Except GpxErr A) : List Xml → Except GpxErr (List A)
  | [] => .ok []
  | x :: rest =>
    match f x with
    | .error e => .error e
    | .ok a =>
      match decodeAll f rest with
      | .error e => .error e
      | .ok as => .ok (a :: as)

/-- Encoding of document metadata. -/
def encodeMetadata (md : Metadata) : Xml :=
  Xml.elem "metadata" []
    (optStrElem "name" md.name ++ optStrElem "desc" md.desc ++
      optStrElem "author" md.author ++ optIntElem "time" md.time)

/-- Lenient decode of document metadata from the children of a `metadata`
element. -/
def decodeMetadata (kids : List Xml) : Metadata :=
  ⟨childStr "name" kids, childStr "desc" kids, childStr "author" kids,
    childInt "time" kids⟩

/-- Encoding of a route: its points as `rtept` children. -/
def encodeRte (pts : List Point) : Xml :=
  Xml.elem "rte" [] (pts.map (encodePoint "rtept"))

/-- Decode of a route element: its `rtept` children, each a point. -/
def decodeRte (x : Xml) : Except GpxErr (List Point) :=
  match x with
  | Xml.elem _ _ kids => decodeAll decodePoint (elemsTagged "rtept" kids)
  | Xml.text _ => .error (.parseErr "expected an element")

/-- Encoding of one track segment: its points as `trkpt` children. -/
def encodeSeg (pts : List Point) : Xml :=
  Xml.elem "trkseg" [] (pts.map (encodePoint "trkpt"))

/-- Decode of a track segment element: its `trkpt` children. -/
def decodeSeg (x : Xml) : Except GpxErr (List Point) :=
  match x with
  | Xml.elem _ _ kids => decodeAll decodePoint (elemsTagged "trkpt" kids)
  | Xml.text _ => .error (.parseErr "expected an element")

/-- Encoding of a track: optional name and type, then its segments. -/
def encodeTrk (t : Track) : Xml :=
  Xml.elem "trk" []
    (optStrElem "name" t.name ++ optStrElem "type" t.typeTag ++ t.segs.map encodeSeg)

/-- Decode of a track element. -/
def decodeTrk (x : Xml) : Except GpxErr Track :=
  match x with
  | Xml.elem _ _ kids =>
    match decodeAll decodeSeg (elemsTagged "trkseg" kids) with
    | .error e => .error e
    | .ok segs => .ok ⟨childStr "name" kids, childStr "type" kids, segs⟩
  | Xml.text _ => .error (.parseErr "expected an element")

/-- Encoding of an optional metadata record (omitted when absent). -/
def optMeta : Option Metadata → List Xml
  | some md => [encodeMetadata md]
  | none => []

/-- Modelled from the spec: deterministic GPX 1.1 encoding of a Document
(§4.3): fixed attribute order (`version`, `creator`) and fixed element
order (metadata, waypoints, routes, tracks, extensions), so that identical
documents always serialize identically. -/
def encodeGpx (d : GpxDoc) : Xml :=
  Xml.elem "gpx" [("version", d.version), ("creator", d.creator)]
    (optMeta d.metadata ++
      d.waypoints.map (encodePoint "wpt") ++
      d.routes.map encodeRte ++
      d.tracks.map encodeTrk ++
      optExts d.extensions)

/-- Modelled from the spec: structural decode of a GPX document (§4.3):
the root must be a `gpx` element whose `version` and `creator` attributes
are present (else `ParseError`); sections are collected by tag. -/
def decodeGpx (x : Xml) : Except GpxErr GpxDoc :=
  match x with
  | Xml.elem "gpx" attrs kids =>
    match findAttr "version" attrs with
    | none => .error (.parseErr "missing version attribute")
    | some version =>
      match findAttr "creator" attrs with
      | none => .error (.parseErr "missing creator attribute")
      | some creator =>
        match decodeAll decodePoint (elemsTagged "wpt" kids) with
        | .error e => .error e
        | .ok wpts =>
          match decodeAll decodeRte (elemsTagged "rte" kids) with
          | .error e => .error e
          | .ok rtes =>
            match decodeAll decodeTrk (elemsTagged "trk" kids) with
            | .error e => .error e
            | .ok trks =>
              .ok ⟨version, creator,
                (findElemKids "metadata" kids).map decodeMetadata,
                wpts, rtes, trks, childExts kids⟩
  | _ => .error (.parseErr "root element is not gpx")

/-! ### Schema validation and checked entry points (§4.3, §7) -/

/-- A conforming extension child: `<key>value</key>`. -/
def validExtKid : Xml → Bool
  | Xml.elem _ [] [Xml.text _] => true
  | _ => false

/-- A conforming `extensions` element. -/
def validExtensions (x : Xml) : Bool :=
  match x with
  | Xml.elem t [] kids => t = "extensions" && kids.all validExtKid
  | _ => false

/-- A conforming child of a point element: integer `ele` or `time`, or a
conforming `extensions` element; anything else violates the schema. -/
def validPointChild (x : Xml) : Bool :=
  match x with
  | Xml.elem "ele" [] [Xml.text s] => (strToInt? s).isSome
  | Xml.elem "time" [] [Xml.text s] => (strToInt? s).isSome
  | _ => validExtensions x

/-- A conforming point element: exactly the `lat` and `lon` attributes, in
range (micro-degrees within ±90°/±180°), and conforming children. -/
def validPointElem (tag : String) (x : Xml) : Bool :=
  match x with
  | Xml.elem t [("lat", slat), ("lon", slon)] kids =>
    t = tag &&
    (match strToInt? slat, strToInt? slon with
     | some la, some lo =>
       decide (-90000000 ≤ la) && decide (la ≤ 90000000) &&
       decide (-180000000 ≤ lo) && decide (lo ≤ 180000000)
     | _, _ => false) &&
    kids.all validPointChild
  | _ => false

/-- A conforming metadata child. -/
def validMetadataChild (x : Xml) : Bool :=
  match x with
  | Xml.elem "name" [] [Xml.text _] => true
  | Xml.elem "desc" [] [Xml.text _] => true
  | Xml.elem "author" [] [Xml.text _] => true
  | Xml.elem "time" [] [Xml.text s] => (strToInt? s).isSome
  | _ => false

/-- A conforming metadata element. -/
def validMetadataElem (x : Xml) : Bool :=
  match x with
  | Xml.elem t [] kids => t = "metadata" && kids.all validMetadataChild
  | _ => false

/-- A conforming route element: only `rtept` point children. -/
def validRteElem (x : Xml) : Bool :=
  match x with
  | Xml.elem t [] kids => t = "rte" && kids.all (validPointElem "rtept")
  | _ => false

/-- A conforming track child: name, type, or a segment of `trkpt` points. -/
def validTrkChild (x : Xml) : Bool :=
  match x with
  | Xml.elem "name" [] [Xml.text _] => true
  | Xml.elem "type" [] [Xml.text _] => true
  | Xml.elem t [] kids => t = "trkseg" && kids.all (validPointElem "trkpt")
  | _ => false

/-- A conforming track element. -/
def validTrkElem (x : Xml) : Bool :=
  match x with
  | Xml.elem t [] kids => t = "trk" && kids.all validTrkChild
  | _ => false

/-- A conforming child of the root element. -/
def validGpxChild (x : Xml) : Bool :=
  validMetadataElem x || validPointElem "wpt" x || validRteElem x ||
    validTrkElem x || validExtensions x

/-- Modelled from the spec: validation against the bundled GPX topology
schema (§4.3, §6): the root is a `gpx` element carrying exactly the
`version` (1.0 or 1.1) and `creator` attributes, and every child conforms
to its element kind (element order is not modelled). -/
def schemaValid (x : Xml) : Bool :=
  match x with
  | Xml.elem t [("version", v), ("creator", _)] kids =>
    t = "gpx" && (v = "1.0" || v = "1.1") && kids.all validGpxChild
  | _ => false

/-- Modelled from the spec: decoding with an optional schema check (§4.3):
the structural parse runs first (its `ParseError`s surface for every
caller); when and only when `check` is set, a document that fails schema
validation is rejected with a `SchemaError` naming the schema. -/
def decodeGpxChecked (check : Bool) (x : Xml) : Except GpxErr GpxDoc :=
  match decodeGpx x with
  | .error e => .error e
  | .ok d =>
    if check && !schemaValid x then
      .error (.schemaErr "gpx.xsd" "document fails the GPX topology schema")
    else .ok d

/-- Modelled from the repository documentation of `to_gpx` (the tutorial
shows `if gpx.to_gpx("new_file.gpx", check_schemas=True, ...) == False`):
writing serializes the document and, when schema checking is requested,
the outcome of validating the written form is reported as the Boolean
return value; no error value is produced. -/
def toGpx (check : Bool) (d : GpxDoc) : Xml × Bool :=
  (encodeGpx d, !check || schemaValid (encodeGpx d))

/-! ### KML / KMZ decoding (§4.3) -/

/-- A geographic coordinate node of the (already XML-parsed) KML content. -/
def kmlPointOf (x : Xml) : Option Point :=
  match x with
  | Xml.elem t attrs _ =>
    if t = "coordinate" then
      match findAttr "lat" attrs, findAttr "lon" attrs with
      | some slat, some slon =>
        match strToInt? slat, strToInt? slon with
        | some la, some lo => some ⟨la, lo, none, none, []⟩
        | _, _ => none
      | _, _ => none
    else none
  | Xml.text _ => none

/-- Modelled from the spec: KML decode (§4.3): only geographic coordinate
and name data are extracted into Points/Tracks — non-geographic KML
constructs (styles, overlays) are dropped. -/
def decodeKml (x : Xml) : GpxDoc :=
  match x with
  | Xml.elem _ _ kids =>
    ⟨"1.1", "ezGPX", none, [], [],
      [⟨childStr "name" kids, none, [kids.filterMap kmlPointOf]⟩], []⟩
  | Xml.text _ => ⟨"1.1", "ezGPX", none, [], [], [], []⟩

/-- The observable events of a KMZ decode, in order: the file-system side
effect of writing the temporary KML file into the working directory `"."`,
and the delegation to the KML decoder. -/
inductive KmzEvent where
  | fsWriteTempKml (dir name : String)
  | delegateKmlDecode (name : String)
deriving Repr, DecidableEq

/-- Whether an archive entry name has the `.kml` extension. -/
def hasKmlExt (s : String) : Bool :=
  match s.data.reverse with
  | 'l' :: 'm' :: 'k' :: '.' :: _ => true
  | _ => false

/-- The first KML entry of an archive. -/
def findKmlEntry : List (String × Xml) → Option (String × Xml)
  | [] => none
  | (n, c) :: rest => if hasKmlExt n then some (n, c) else findKmlEntry rest

/-- Modelled from the spec and the repository documentation: decoding a KMZ
(a zip archive of entries) extracts one contained KML entry (ParseError if
none is found), writes it as a temporary KML file in the current working
directory, and then delegates to the KML decoder; the resulting document
comes from that entry alone.  The archive is modelled as named entries
whose contents are already XML-parsed, and the decode returns its ordered
event trace alongside the document. -/
def decodeKmz (archive : List (String × Xml)) : Except GpxErr (GpxDoc × List KmzEvent) :=
  match findKmlEntry archive with
  | none => .error (.parseErr "no KML entry in KMZ archive")
  | some (n, c) =>
    .ok (decodeKml c, [.fsWriteTempKml "." n, .delegateKmlDecode n])

/-! ## Theorems -/

/-- Squared sine of a half difference is symmetric in its endpoints. -/
theorem sin_half_sub_sq_symm (x y : ℝ) :
    Real.sin ((y - x) / 2) ^ 2 = Real.sin ((x - y) / 2) ^ 2 := by
  rw [show (y - x) / 2 = -((x - y) / 2) by ring, Real.sin_neg]
  ring

/-- C9: the great-circle distance is symmetric, `distance a b = distance b a`,
and degenerate, `distance a a = 0`, for all coordinate pairs. -/
theorem distance_symm_self (a b : Point) :
    distance a b = distance b a ∧ distance a a = 0 := by
  constructor
  · unfold distance
    rw [sin_half_sub_sq_symm (radOfMicroDeg a.lat) (radOfMicroDeg b.lat),
      sin_half_sub_sq_symm (radOfMicroDeg a.lon) (radOfMicroDeg b.lon),
      mul_comm (Real.cos (radOfMicroDeg a.lat))]
  · simp [distance, Real.sqrt_zero, Real.arcsin_zero]

/-- Flattening all points of a mapped document is mapping over the flattened
points. -/
theorem allPoints_mapPoints (f : Point → Point) (d : GpxDoc) :
    (GpxDoc.mapPoints f d).allPoints = d.allPoints.map f := by
  simp only [GpxDoc.allPoints, GpxDoc.mapPoints, List.map_append, List.map_map,
    List.map_flatten]
  congr 1
  congr 1
  apply List.map_congr_left
  intro t _
  simp [Function.comp, List.map_flatten, List.map_map]

/-- Clearing the elevation twice is the same as clearing it once. -/
theorem Point.clearEle_clearEle (p : Point) : p.clearEle.clearEle = p.clearEle := rfl

/-- Clearing the timestamp twice is the same as clearing it once. -/
theorem Point.clearTime_clearTime (p : Point) : p.clearTime.clearTime = p.clearTime := rfl

/-- Clearing the extensions twice is the same as clearing them once. -/
theorem Point.clearExt_clearExt (p : Point) : p.clearExt.clearExt = p.clearExt := rfl

/-- Two point-wise passes over a document collapse to a single pass. -/
theorem mapPoints_mapPoints (f g : Point → Point) (d : GpxDoc) :
    GpxDoc.mapPoints f (GpxDoc.mapPoints g d) =
      GpxDoc.mapPoints (fun p => f (g p)) d := by
  simp [GpxDoc.mapPoints, List.map_map, Function.comp]

/-- C8: each removal operation clears the named field on every point (or on
the document, for metadata and the document-level extensions bag) and is
idempotent: a second call leaves the document identical. -/
theorem remove_ops_clear_and_idempotent (d : GpxDoc) :
    removeMetadata (removeMetadata d) = removeMetadata d ∧
    removeElevation (removeElevation d) = removeElevation d ∧
    removeTime (removeTime d) = removeTime d ∧
    removeExtensions (removeExtensions d) = removeExtensions d ∧
    (removeMetadata d).metadata = none ∧
    ((removeElevation d).allPoints.all fun p => p.ele == none) = true ∧
    ((removeTime d).allPoints.all fun p => p.time == none) = true ∧
    ((removeExtensions d).allPoints.all fun p => p.extensions == []) = true ∧
    (removeExtensions d).extensions = [] := by
  refine ⟨rfl, ?_, ?_, ?_, rfl, ?_, ?_, ?_, rfl⟩
  · rw [removeElevation, removeElevation, mapPoints_mapPoints]
    simp only [Point.clearEle_clearEle]
  · rw [removeTime, removeTime, mapPoints_mapPoints]
    simp only [Point.clearTime_clearTime]
  · show ({ GpxDoc.mapPoints Point.clearExt
      { GpxDoc.mapPoints Point.clearExt d with extensions := [] } with
        extensions := [] } : GpxDoc) = _
    rw [show ({ GpxDoc.mapPoints Point.clearExt d with extensions := [] } : GpxDoc)
        = GpxDoc.mapPoints Point.clearExt { d with extensions := [] } by
      simp [GpxDoc.mapPoints]]
    rw [mapPoints_mapPoints]
    simp only [Point.clearExt_clearExt]
    simp [removeExtensions, GpxDoc.mapPoints]
  · rw [removeElevation, allPoints_mapPoints]
    simp [List.all_eq_true, Point.clearEle]
  · rw [removeTime, allPoints_mapPoints]
    simp [List.all_eq_true, Point.clearTime]
  · show ((GpxDoc.mapPoints Point.clearExt d).allPoints.all
      fun p => p.extensions == []) = true
    rw [allPoints_mapPoints]
    simp [List.all_eq_true, Point.clearExt]

/-- Folding the aggregate from a present accumulator is a plain fold over
the present samples. -/
theorem seriesFold_some (op : ℚ → ℚ → ℚ) :
    ∀ (l : List (Option ℚ)) (a : ℚ),
      l.foldl (mergeOpt op) (some a) = some ((l.filterMap id).foldl op a) := by
  intro l
  induction l with
  | nil => intro a; rfl
  | cons x xs ih => intro a; cases x <;> simp [mergeOpt, ih]

/-- The streaming minimum agrees with the minimum of the present samples. -/
theorem seriesMin_eq (l : List (Option ℚ)) :
    seriesMin l = (l.filterMap id).min? := by
  unfold seriesMin seriesFold
  induction l with
  | nil => rfl
  | cons x xs ih =>
    cases x with
    | none => simpa [mergeOpt] using ih
    | some b => simp [mergeOpt, List.min?, seriesFold_some]

/-- The streaming maximum agrees with the maximum of the present samples. -/
theorem seriesMax_eq (l : List (Option ℚ)) :
    seriesMax l = (l.filterMap id).max? := by
  unfold seriesMax seriesFold
  induction l with
  | nil => rfl
  | cons x xs ih =>
    cases x with
    | none => simpa [mergeOpt] using ih
    | some b => simp [mergeOpt, List.max?, seriesFold_some]

/-- C7: the aggregate min/max of any per-point derived series ignore `None`
entries (they equal the min/max of the present values); an all-`None`
series aggregates to `None`; and a present aggregate is one of the
series' values, never a fabricated sentinel. -/
theorem series_aggregates (l : List (Option ℚ)) :
    seriesMin l = (l.filterMap id).min? ∧
    seriesMax l = (l.filterMap id).max? ∧
    ((l.all fun x => x.isNone) = true → seriesMin l = none ∧ seriesMax l = none) ∧
    (∀ v, seriesMin l = some v → v ∈ l.filterMap id) ∧
    (∀ v, seriesMax l = some v → v ∈ l.filterMap id) := by
  have hnil : (l.all fun x => x.isNone) = true → l.filterMap id = [] := by
    intro h
    rw [List.filterMap_eq_nil_iff]
    intro a ha
    have := List.all_eq_true.mp h a ha
    simpa [Option.isNone_iff_eq_none] using this
  refine ⟨seriesMin_eq l, seriesMax_eq l, ?_, ?_, ?_⟩
  · intro h
    rw [seriesMin_eq, seriesMax_eq, hnil h]
    exact ⟨rfl, rfl⟩
  · intro v hv
    rw [seriesMin_eq] at hv
    exact List.min?_mem min_choice hv
  · intro v hv
    rw [seriesMax_eq] at hv
    exact List.max?_mem max_choice hv

/-- C7 witness: an all-`None` series aggregates to `None`, never 0. -/
theorem series_aggregates_witness :
    seriesMin [none, none] = none ∧ seriesMax [none, none] = none :=
  (series_aggregates [none, none]).2.2.1 (by decide)

/-- Moving plus stopped time over a fully-timestamped point sequence
telescopes to the elapsed time between its first and last points. -/
theorem moving_stopped_aux (thr : ℝ) :
    ∀ seg : List Point, (∀ p ∈ seg, p.time.isSome) →
      movingTime thr seg + stoppedTime thr seg = totalElapsedTime seg := by
  intro seg
  induction seg with
  | nil => intro _; simp [movingTime, stoppedTime, totalElapsedTime]
  | cons a rest ih =>
    intro h
    cases rest with
    | nil => simp [movingTime, stoppedTime, totalElapsedTime]
    | cons b rest' =>
      have hIH := ih (fun p hp => h p (List.mem_cons_of_mem a hp))
      obtain ⟨ta, hta⟩ := Option.isSome_iff_exists.mp (h a (by simp))
      obtain ⟨tb, htb⟩ := Option.isSome_iff_exists.mp (h b (by simp))
      have he : elapsedBetween a b = (tb : ℝ) - (ta : ℝ) := by
        simp [elapsedBetween, timeDelta, hta, htb]
      have hsplit : movingTime thr (a :: b :: rest') + stoppedTime thr (a :: b :: rest')
          = elapsedBetween a b +
            (movingTime thr (b :: rest') + stoppedTime thr (b :: rest')) := by
        simp only [movingTime, stoppedTime]
        by_cases hs : stoppedInterval thr a b
        · simp only [if_pos hs]; ring
        · simp only [if_neg hs]; ring
      rw [hsplit, hIH]
      simp only [totalElapsedTime, List.head?_cons, List.getLast?_cons_cons]
      cases hz : (b :: rest').getLast? with
      | none => simp at hz
      | some z =>
        simp only [hz, he, hta, htb, Option.getD_some]
        ring

/-- C6: for a document all of whose points carry timestamps, the total
elapsed time equals moving time plus stopped time, for any speed
threshold. -/
theorem total_time_partition (thr : ℝ) (d : GpxDoc)
    (h : ∀ p ∈ d.allPoints, p.time.isSome) :
    totalElapsedTime d.allPoints =
      movingTime thr d.allPoints + stoppedTime thr d.allPoints :=
  (moving_stopped_aux thr d.allPoints h).symm

/-- A two-point, fully-timestamped demonstration document. -/
def timedDoc : GpxDoc :=
  ⟨"1.1", "ezGPX", none, [], [],
    [⟨none, none, [[⟨0, 0, none, some 0, []⟩, ⟨900000, 0, none, some 36, []⟩]]⟩], []⟩

/-- C6 witness: the partition equality at a concrete timestamped document. -/
theorem total_time_partition_witness :
    totalElapsedTime timedDoc.allPoints =
      movingTime 1 timedDoc.allPoints + stoppedTime 1 timedDoc.allPoints :=
  total_time_partition 1 timedDoc (by simp [timedDoc, GpxDoc.allPoints])

/-- The single GPS-error pass keeps exactly the non-flagged points of the
remaining list (together with the unconditional last point), where flags
come from original-neighbour triples headed by `prev`. -/
theorem removeGpsErrorsAux_eq (ex : Point → Point → Bool) :
    ∀ (l : List Point) (prev : Point) (h : l ≠ []),
      removeGpsErrorsAux ex prev l
        = (((prev :: l).zip (l.zip (l.drop 1))).filter
            (fun t => !(ex t.1 t.2.1 && ex t.2.1 t.2.2))).map (fun t => t.2.1)
          ++ [l.getLast h] := by
  intro l
  induction l with
  | nil => intro prev h; exact absurd rfl h
  | cons cur t ih =>
    intro prev h
    cases t with
    | nil => simp [removeGpsErrorsAux]
    | cons nxt rest =>
      have ihh := ih cur (List.cons_ne_nil nxt rest)
      simp only [removeGpsErrorsAux, List.drop_succ_cons, List.drop_zero,
        List.zip_cons_cons, List.filter_cons, List.map_cons,
        List.getLast_cons (List.cons_ne_nil nxt rest)]
      cases hb : (ex prev cur && ex cur nxt) with
      | true => simp [hb, ihh]
      | false => simp [hb, ihh]

/-- C3: `remove_gps_errors` removes exactly the interior points whose
incoming and outgoing segment-implied speeds both exceed the threshold
(the declarative triple-filter form), operates in a single pass over the
original neighbours, and never reduces a segment below 2 points; the first
and last points are always retained. -/
theorem remove_gps_errors_exact {α : Type} [LinearOrderedRing α]
    (dist : Point → Point → α) (thr : α) (seg : List Point) :
    removeGpsErrors (speedExceeds dist thr) seg
      = removeGpsErrorsSpec (speedExceeds dist thr) seg ∧
    (2 ≤ seg.length → 2 ≤ (removeGpsErrors (speedExceeds dist thr) seg).length) ∧
    (removeGpsErrors (speedExceeds dist thr) seg).head? = seg.head? ∧
    (removeGpsErrors (speedExceeds dist thr) seg).getLast? = seg.getLast? := by
  match seg with
  | [] => exact ⟨rfl, by simp [removeGpsErrors], rfl, rfl⟩
  | [p] => exact ⟨rfl, by simp [removeGpsErrors, removeGpsErrorsAux], rfl, rfl⟩
  | p :: q :: rest =>
    have hrw : removeGpsErrors (speedExceeds dist thr) (p :: q :: rest)
        = removeGpsErrorsSpec (speedExceeds dist thr) (p :: q :: rest) := by
      show p :: removeGpsErrorsAux (speedExceeds dist thr) p (q :: rest) = _
      rw [removeGpsErrorsAux_eq (speedExceeds dist thr) (q :: rest) p
        (List.cons_ne_nil q rest)]
      rfl
    refine ⟨hrw, ?_, ?_, ?_⟩
    · intro _
      rw [hrw]
      show 2 ≤ (p :: (_ ++ [(q :: rest).getLast (List.cons_ne_nil q rest)])).length
      simp
    · rw [hrw]; rfl
    · rw [hrw]
      show (p :: (_ ++ [(q :: rest).getLast (List.cons_ne_nil q rest)])).getLast? = _
      rw [← List.cons_append, List.getLast?_concat, List.getLast?_cons_cons,
        List.getLast?_eq_getLast (q :: rest) (List.cons_ne_nil q rest)]

/-- A one-dimensional demonstration distance along the latitude axis, in
units of one kilometer-per-hour-second (5/18 m), so that implied speeds in
km/h are exact integers. -/
def flatDist (a b : Point) : Int :=
  if b.lat ≤ a.lat then a.lat - b.lat else b.lat - a.lat

/-- A point of the spike demonstration segment: position (in 5/18 m units
along the demo axis) and timestamp (seconds). -/
def spikePoint (x t : Int) : Point := ⟨x, 0, none, some t, []⟩

/-- Five points sampled every 36 s: neighbouring implied speeds are exactly
10 km/h except around the single spike point, whose incoming and outgoing
implied speeds are exactly 210 km/h. -/
def spikeSeg : List Point :=
  [spikePoint 0 0, spikePoint 360 36, spikePoint 7920 72,
   spikePoint 360 108, spikePoint 720 144]

/-- C3 witness: with threshold 200 km/h exactly the spike point is removed,
leaving original length − 1 with endpoints intact. -/
theorem remove_gps_errors_exact_witness :
    removeGpsErrors (speedExceeds flatDist 200) spikeSeg
      = removeGpsErrorsSpec (speedExceeds flatDist 200) spikeSeg ∧
    2 ≤ (removeGpsErrors (speedExceeds flatDist 200) spikeSeg).length ∧
    removeGpsErrors (speedExceeds flatDist 200) spikeSeg
      = [spikePoint 0 0, spikePoint 360 36, spikePoint 360 108, spikePoint 720 144] ∧
    (removeGpsErrors (speedExceeds flatDist 200) spikeSeg).length
      = spikeSeg.length - 1 :=
  ⟨(remove_gps_errors_exact flatDist 200 spikeSeg).1,
   (remove_gps_errors_exact flatDist 200 spikeSeg).2.1 (by decide),
   by decide, by decide⟩

/-- `argmaxBy` yields `none` only on the empty list. -/
theorem argmaxBy_eq_none {f : Point → Int} :
    ∀ {l : List Point}, argmaxBy f l = none → l = [] := by
  intro l h
  cases l with
  | nil => rfl
  | cons p ps =>
    simp only [argmaxBy] at h
    cases hps : argmaxBy f ps with
    | none => simp [hps] at h
    | some pr =>
      obtain ⟨j, q⟩ := pr
      simp only [hps] at h
      split at h <;> simp_all

/-- The full specification of `argmaxBy`: it returns a valid index holding
the returned element, every earlier element is strictly below it (earliest
tie-break), and it is maximal over the whole list. -/
theorem argmaxBy_spec {f : Point → Int} :
    ∀ {l : List Point} {i : Nat} {x : Point}, argmaxBy f l = some (i, x) →
      i < l.length ∧ l[i]? = some x ∧
      (∀ y ∈ l.take i, f y < f x) ∧ (∀ y ∈ l, f y ≤ f x) := by
  intro l
  induction l with
  | nil => intro i x h; simp [argmaxBy] at h
  | cons p ps ih =>
    intro i x h
    simp only [argmaxBy] at h
    cases hps : argmaxBy f ps with
    | none =>
      simp only [hps] at h
      obtain rfl : ps = [] := argmaxBy_eq_none hps
      simp only [Option.some_inj, Prod.mk.injEq] at h
      obtain ⟨rfl, rfl⟩ := h
      simp
    | some pr =>
      obtain ⟨j, q⟩ := pr
      simp only [hps] at h
      obtain ⟨hj, hget, hbefore, hall⟩ := ih hps
      by_cases hc : f p < f q
      · rw [if_pos hc] at h
        simp only [Option.some_inj, Prod.mk.injEq] at h
        obtain ⟨rfl, rfl⟩ := h
        refine ⟨by simpa using hj, by simpa using hget, ?_, ?_⟩
        · intro y hy
          rcases List.mem_cons.mp (by simpa using hy) with rfl | hy2
          · exact hc
          · exact hbefore y hy2
        · intro y hy
          rcases List.mem_cons.mp hy with rfl | hy2
          · exact le_of_lt hc
          · exact hall y hy2
      · rw [if_neg hc] at h
        simp only [Option.some_inj, Prod.mk.injEq] at h
        obtain ⟨rfl, rfl⟩ := h
        refine ⟨by simp, by simp, by simp, ?_⟩
        intro y hy
        rcases List.mem_cons.mp hy with rfl | hy2
        · exact le_refl _
        · exact le_trans (hall y hy2) (not_lt.mp hc)

/-- The element returned by `argmaxBy` belongs to the list. -/
theorem argmaxBy_mem {f : Point → Int} {l : List Point} {i : Nat} {x : Point}
    (h : argmaxBy f l = some (i, x)) : x ∈ l := by
  obtain ⟨-, hget, -, -⟩ := argmaxBy_spec h
  exact List.getElem?_mem hget

/-- `argmaxBy` on a list that splits as `l₁ ++ x :: l₂`, with everything in
`l₁` strictly below `x` and everything in `l₂` at most `x`, returns exactly
the split point. -/
theorem argmaxBy_append {f : Point → Int} :
    ∀ (l₁ : List Point) (x : Point) (l₂ : List Point),
      (∀ y ∈ l₁, f y < f x) → (∀ y ∈ l₂, f y ≤ f x) →
      argmaxBy f (l₁ ++ x :: l₂) = some (l₁.length, x) := by
  intro l₁
  induction l₁ with
  | nil =>
    intro x l₂ _ h₂
    simp only [List.nil_append, argmaxBy, List.length_nil]
    cases h₂' : argmaxBy f l₂ with
    | none => rfl
    | some pr =>
      obtain ⟨j, q⟩ := pr
      simp only [h₂']
      rw [if_neg (not_lt.mpr (h₂ q (argmaxBy_mem h₂')))]
  | cons p l₁ ih =>
    intro x l₂ h₁ h₂
    simp only [List.cons_append, argmaxBy, List.append_eq]
    rw [ih x l₂ (fun y hy => h₁ y (List.mem_cons_of_mem p hy)) h₂]
    simp only []
    rw [if_pos (h₁ p (List.mem_cons_self p l₁))]
    simp

/-- Any two sufficient fuels give the same Ramer-Douglas-Peucker result. -/
theorem rdpFuel_congr (tolSq : Int) :
    ∀ (n₁ : Nat) (mid : List Point) (n₂ : Nat), mid.length ≤ n₁ → mid.length ≤ n₂ →
      ∀ a b, rdpFuel tolSq n₁ a b mid = rdpFuel tolSq n₂ a b mid := by
  intro n₁
  induction n₁ with
  | zero =>
    intro mid n₂ h₁ h₂ a b
    obtain rfl : mid = [] := List.length_eq_zero.mp (Nat.le_zero.mp h₁)
    cases n₂ with
    | zero => rfl
    | succ m => simp [rdpFuel, argmaxBy]
  | succ n ih =>
    intro mid n₂ h₁ h₂ a b
    cases n₂ with
    | zero =>
      obtain rfl : mid = [] := List.length_eq_zero.mp (Nat.le_zero.mp h₂)
      simp [rdpFuel, argmaxBy]
    | succ m =>
      simp only [rdpFuel]
      cases hm : argmaxBy (devSq a b) mid with
      | none => rfl
      | some pr =>
        obtain ⟨i, x⟩ := pr
        obtain ⟨hi, -, -, -⟩ := argmaxBy_spec hm
        by_cases hle : devSq a b x ≤ tolSq * chordSq a b
        · simp [hle]
        · simp only [hle, if_false]
          rw [ih (mid.take i) m (by simp [List.length_take]; omega)
              (by simp [List.length_take]; omega) a x,
            ih (mid.drop (i + 1)) m (by simp [List.length_drop]; omega)
              (by simp [List.length_drop]; omega) x b]

/-- One-step unfolding of the Ramer-Douglas-Peucker interior reduction. -/
theorem rdpAux_unfold (tolSq : Int) (a b : Point) (mid : List Point) :
    rdpAux tolSq a b mid =
      match argmaxBy (devSq a b) mid with
      | none => []
      | some (i, x) =>
        if devSq a b x ≤ tolSq * chordSq a b then []
        else rdpAux tolSq a x (mid.take i) ++ x :: rdpAux tolSq x b (mid.drop (i + 1)) := by
  cases mid with
  | nil => rfl
  | cons hd tl =>
    simp only [rdpAux, List.length_cons, rdpFuel]
    cases hm : argmaxBy (devSq a b) (hd :: tl) with
    | none => rfl
    | some pr =>
      obtain ⟨i, x⟩ := pr
      obtain ⟨hi, -, -, -⟩ := argmaxBy_spec hm
      by_cases hle : devSq a b x ≤ tolSq * chordSq a b
      · simp [hle]
      · simp only [hle, if_false]
        rw [rdpFuel_congr tolSq tl.length ((hd :: tl).take i) ((hd :: tl).take i).length
            (by simp [List.length_take]; simp at hi; omega) (le_refl _) a x,
          rdpFuel_congr tolSq tl.length ((hd :: tl).drop (i + 1))
            ((hd :: tl).drop (i + 1)).length
            (by simp [List.length_drop]) (le_refl _) x b]

/-- The Ramer-Douglas-Peucker interior reduction returns a subsequence of
its input. -/
theorem rdpAux_sublist (tolSq : Int) :
    ∀ (n : Nat) (mid : List Point), mid.length ≤ n → ∀ a b,
      List.Sublist (rdpAux tolSq a b mid) mid := by
  intro n
  induction n with
  | zero =>
    intro mid h a b
    obtain rfl : mid = [] := List.length_eq_zero.mp (Nat.le_zero.mp h)
    simp [rdpAux, rdpFuel]
  | succ n ih =>
    intro mid h a b
    rw [rdpAux_unfold]
    cases hm : argmaxBy (devSq a b) mid with
    | none => simp
    | some pr =>
      obtain ⟨i, x⟩ := pr
      obtain ⟨hi, hget, -, -⟩ := argmaxBy_spec hm
      by_cases hle : devSq a b x ≤ tolSq * chordSq a b
      · simp [hle]
      · simp only [hle, if_false]
        have hL : List.Sublist (rdpAux tolSq a x (mid.take i)) (mid.take i) :=
          ih (mid.take i) (by simp [List.length_take]; omega) a x
        have hR : List.Sublist (rdpAux tolSq x b (mid.drop (i + 1))) (mid.drop (i + 1)) :=
          ih (mid.drop (i + 1)) (by simp [List.length_drop]; omega) x b
        have hx : mid[i] = x := by
          have := List.getElem?_eq_getElem hi
          rw [this] at hget
          exact Option.some_inj.mp hget
        have hsplit : mid.take i ++ x :: mid.drop (i + 1) = mid := by
          conv_rhs => rw [← List.take_append_drop i mid]
          rw [List.drop_eq_getElem_cons hi, hx]
        have hstep : List.Sublist
            (rdpAux tolSq a x (mid.take i) ++ x :: rdpAux tolSq x b (mid.drop (i + 1)))
            (mid.take i ++ x :: mid.drop (i + 1)) :=
          List.Sublist.append hL (List.Sublist.cons₂ x hR)
        rw [hsplit] at hstep
        exact hstep

/-- The Ramer-Douglas-Peucker interior reduction is idempotent: running it
again on its own output (same chord, same tolerance) changes nothing.  The
key points are that the split point of the first run is still the earliest
maximal-deviation point of the output, and that the output splits at it
into the outputs of the two recursive calls. -/
theorem rdpAux_idem (tolSq : Int) :
    ∀ (n : Nat) (mid : List Point), mid.length ≤ n → ∀ a b,
      rdpAux tolSq a b (rdpAux tolSq a b mid) = rdpAux tolSq a b mid := by
  intro n
  induction n with
  | zero =>
    intro mid h a b
    obtain rfl : mid = [] := List.length_eq_zero.mp (Nat.le_zero.mp h)
    rfl
  | succ n ih =>
    intro mid h a b
    rw [rdpAux_unfold tolSq a b mid]
    cases hm : argmaxBy (devSq a b) mid with
    | none => rfl
    | some pr =>
      obtain ⟨i, x⟩ := pr
      obtain ⟨hi, hget, hbefore, hall⟩ := argmaxBy_spec hm
      by_cases hle : devSq a b x ≤ tolSq * chordSq a b
      · simp only [hle, if_true]
        rfl
      · simp only [hle, if_false]
        have hLsub := rdpAux_sublist tolSq (mid.take i).length (mid.take i) (le_refl _) a x
        have hRsub := rdpAux_sublist tolSq (mid.drop (i + 1)).length (mid.drop (i + 1))
          (le_refl _) x b
        have hLlt : ∀ y ∈ rdpAux tolSq a x (mid.take i), devSq a b y < devSq a b x :=
          fun y hy => hbefore y (hLsub.subset hy)
        have hRle : ∀ y ∈ rdpAux tolSq x b (mid.drop (i + 1)), devSq a b y ≤ devSq a b x :=
          fun y hy => hall y (List.drop_subset (i + 1) mid (hRsub.subset hy))
        have ham := argmaxBy_append (rdpAux tolSq a x (mid.take i)) x
          (rdpAux tolSq x b (mid.drop (i + 1))) hLlt hRle
        rw [rdpAux_unfold tolSq a b _, ham]
        simp only [hle, if_false]
        rw [List.take_left]
        have hdrop : (rdpAux tolSq a x (mid.take i) ++ x :: rdpAux tolSq x b (mid.drop (i + 1))).drop
            ((rdpAux tolSq a x (mid.take i)).length + 1)
            = rdpAux tolSq x b (mid.drop (i + 1)) := by
          rw [List.append_cons]
          have hlen : (rdpAux tolSq a x (mid.take i)).length + 1
              = (rdpAux tolSq a x (mid.take i) ++ [x]).length := by simp
          rw [hlen, List.drop_left]
        rw [hdrop]
        rw [ih (mid.take i) (by simp [List.length_take]; omega) a x,
          ih (mid.drop (i + 1)) (by simp [List.length_drop]; omega) x b]

/-- `simplifySeg` computed on a segment presented as head, interior and
last point. -/
theorem simplifySeg_cons_concat (tolSq : Int) (a b : Point) (X : List Point) :
    simplifySeg tolSq (a :: (X ++ [b])) = a :: (rdpAux tolSq a b X ++ [b]) := by
  simp [simplifySeg, List.getLast?_concat, List.dropLast_concat]

/-- C2: for every Segment and every tolerance, `simplify` never increases
the point count, always retains the first and last point of the Segment,
is a fixpoint on already-simplified output, and at document level operates
per-Segment (each track segment is simplified independently, so points are
never merged across Segment boundaries). -/
theorem simplify_rdp_properties (tolSq : Int) (seg : List Point) (d : GpxDoc) :
    (simplifySeg tolSq seg).length ≤ seg.length ∧
    (simplifySeg tolSq seg).head? = seg.head? ∧
    (simplifySeg tolSq seg).getLast? = seg.getLast? ∧
    simplifySeg tolSq (simplifySeg tolSq seg) = simplifySeg tolSq seg ∧
    (simplify tolSq d).tracks.map Track.segs
      = d.tracks.map (fun tr => tr.segs.map (simplifySeg tolSq)) := by
  have hdoc : (simplify tolSq d).tracks.map Track.segs
      = d.tracks.map (fun tr => tr.segs.map (simplifySeg tolSq)) := by
    simp [simplify, List.map_map, Function.comp]
  cases seg with
  | nil => exact ⟨by simp [simplifySeg], rfl, rfl, rfl, hdoc⟩
  | cons a rest =>
    cases hgl : rest.getLast? with
    | none =>
      obtain rfl : rest = [] := by
        cases rest with
        | nil => rfl
        | cons r rs => rw [List.getLast?_eq_getLast (r :: rs) (List.cons_ne_nil r rs)] at hgl; cases hgl
      exact ⟨by simp [simplifySeg], rfl, rfl, rfl, hdoc⟩
    | some b =>
      have hne : rest ≠ [] := by
        intro hnil
        rw [hnil] at hgl
        cases hgl
      have hb : rest.getLast hne = b := by
        rw [List.getLast?_eq_getLast rest hne] at hgl
        exact Option.some_inj.mp hgl
      have hsplit : rest.dropLast ++ [b] = rest := by
        rw [← hb]
        exact List.dropLast_append_getLast hne
      have hIsub := rdpAux_sublist tolSq rest.dropLast.length rest.dropLast (le_refl _) a b
      refine ⟨?_, ?_, ?_, ?_, hdoc⟩
      · rw [show a :: rest = a :: (rest.dropLast ++ [b]) by rw [hsplit],
          simplifySeg_cons_concat]
        have := hIsub.length_le
        simp only [List.length_cons, List.length_append, List.length_cons,
          List.length_nil]
        omega
      · rw [show a :: rest = a :: (rest.dropLast ++ [b]) by rw [hsplit],
          simplifySeg_cons_concat]
        rfl
      · rw [show a :: rest = a :: (rest.dropLast ++ [b]) by rw [hsplit],
          simplifySeg_cons_concat]
        rw [← List.cons_append, ← List.cons_append, List.getLast?_concat,
          List.getLast?_concat]
      · rw [show a :: rest = a :: (rest.dropLast ++ [b]) by rw [hsplit],
          simplifySeg_cons_concat, simplifySeg_cons_concat,
          rdpAux_idem tolSq rest.dropLast.length rest.dropLast (le_refl _) a b]

/-- Every digit produced by `natDigitsAux` is below 10. -/
theorem natDigitsAux_lt_ten :
    ∀ (fuel n : Nat), ∀ d ∈ natDigitsAux fuel n, d < 10 := by
  intro fuel
  induction fuel with
  | zero => intro n d hd; simp [natDigitsAux] at hd
  | succ fuel ih =>
    intro n d hd
    by_cases hn : n = 0
    · simp [natDigitsAux, hn] at hd
    · simp only [natDigitsAux, if_neg hn] at hd
      rcases List.mem_cons.mp hd with rfl | hd'
      · exact Nat.mod_lt n (by norm_num)
      · exact ih (n / 10) d hd'

/-- With sufficient fuel, a nonzero number has at least one digit. -/
theorem natDigitsAux_ne_nil (fuel n : Nat) (hn : n ≠ 0) (hf : n ≤ fuel) :
    natDigitsAux fuel n ≠ [] := by
  cases fuel with
  | zero => omega
  | succ fuel => simp [natDigitsAux, hn]

/-- Parsing the digit character of `d < 10` recovers `d`. -/
theorem digitOf?_digitChar : ∀ d, d < 10 → digitOf? (digitChar d) = some d := by
  decide

/-- Digit characters are never the minus sign. -/
theorem digitChar_ne_dash : ∀ d, d < 10 → digitChar d ≠ '-' := by
  decide

/-- The accumulating decimal parser over an appended list runs in two
stages. -/
theorem charsToNatAux_append :
    ∀ (l₁ l₂ : List Char) (acc : Nat),
      charsToNatAux acc (l₁ ++ l₂) =
        match charsToNatAux acc l₁ with
        | some a => charsToNatAux a l₂
        | none => none := by
  intro l₁
  induction l₁ with
  | nil => intro l₂ acc; rfl
  | cons c cs ih =>
    intro l₂ acc
    simp only [List.cons_append, charsToNatAux]
    cases digitOf? c with
    | none => rfl
    | some d => exact ih l₂ (acc * 10 + d)

/-- Parsing the big-endian digit characters of `n` (with enough fuel)
appends `n` to the accumulator positionally. -/
theorem charsToNatAux_digits :
    ∀ (fuel n acc : Nat), n ≤ fuel →
      charsToNatAux acc ((natDigitsAux fuel n).reverse.map digitChar) =
        some (acc * 10 ^ (natDigitsAux fuel n).length + n) := by
  intro fuel
  induction fuel with
  | zero =>
    intro n acc h
    obtain rfl : n = 0 := Nat.le_zero.mp h
    simp [natDigitsAux, charsToNatAux]
  | succ fuel ih =>
    intro n acc h
    by_cases hn : n = 0
    · simp [natDigitsAux, hn, charsToNatAux]
    · simp only [natDigitsAux, if_neg hn, List.reverse_cons, List.map_append,
        List.map_cons, List.map_nil, List.length_cons]
      rw [charsToNatAux_append]
      have hdiv : n / 10 ≤ fuel := by
        have := Nat.div_lt_self (Nat.pos_of_ne_zero hn) (by norm_num : 1 < 10)
        omega
      rw [ih (n / 10) acc hdiv]
      simp only [charsToNatAux, digitOf?_digitChar (n % 10) (Nat.mod_lt n (by norm_num))]
      congr 1
      have hmod : 10 * (n / 10) + n % 10 = n := Nat.div_add_mod n 10
      rw [pow_succ]
      ring_nf
      omega

/-- Parsing the decimal rendering of a natural number recovers it. -/
theorem charsToNatAux_natToChars (n : Nat) :
    charsToNatAux 0 (natToChars n) = some n := by
  by_cases hn : n = 0
  · subst hn; decide
  · rw [natToChars, if_neg hn, charsToNatAux_digits n n 0 (le_refl n)]
    simp

/-- The decimal rendering of a natural number is never empty. -/
theorem natToChars_ne_nil (n : Nat) : natToChars n ≠ [] := by
  by_cases hn : n = 0
  · subst hn; decide
  · rw [natToChars, if_neg hn]
    intro hcon
    have := natDigitsAux_ne_nil n n hn (le_refl n)
    simp at hcon
    exact this hcon

/-- Every character of the decimal rendering is a digit character. -/
theorem natToChars_all_digits (n : Nat) :
    ∀ c ∈ natToChars n, ∃ d, d < 10 ∧ c = digitChar d := by
  intro c hc
  by_cases hn : n = 0
  · subst hn
    have hc0 : c = '0' := by simpa [natToChars] using hc
    exact ⟨0, by norm_num, by rw [hc0]; rfl⟩
  · rw [natToChars, if_neg hn] at hc
    obtain ⟨d, hd, rfl⟩ := List.mem_map.mp hc
    exact ⟨d, natDigitsAux_lt_ten n n d (List.mem_reverse.mp hd), rfl⟩

/-- Decoding the decimal rendering of an integer recovers it exactly. -/
theorem strToInt?_intToString (i : Int) : strToInt? (intToString i) = some i := by
  by_cases hi : i < 0
  · have h1 := charsToNatAux_natToChars i.natAbs
    have h2 := natToChars_ne_nil i.natAbs
    rw [intToString, if_pos hi]
    show strToInt? ⟨'-' :: natToChars i.natAbs⟩ = some i
    simp [strToInt?, h1, h2]
    rw [abs_of_neg hi, neg_neg]
  · rw [intToString, if_neg hi]
    show strToInt? ⟨natToChars i.natAbs⟩ = some i
    cases hch : natToChars i.natAbs with
    | nil => exact absurd hch (natToChars_ne_nil i.natAbs)
    | cons c cs =>
      obtain ⟨d, hd, rfl⟩ := natToChars_all_digits i.natAbs c (by rw [hch]; simp)
      have h1 : charsToNatAux 0 (digitChar d :: cs) = some i.natAbs := by
        rw [← hch]
        exact charsToNatAux_natToChars i.natAbs
      show strToInt? ⟨digitChar d :: cs⟩ = some i
      simp [strToInt?, digitChar_ne_dash d hd, h1]
      exact not_lt.mp hi

/-- Extracting `ele` from an encoded point's children yields its
elevation. -/
theorem childInt_ele_encoded (pe pt : Option Int) (px : List (String × String)) :
    childInt "ele" (optIntElem "ele" pe ++ (optIntElem "time" pt ++ optExts px)) = pe := by
  cases pe <;> cases pt <;> cases px <;>
    simp [childInt, optIntElem, optExts, textOf1, strToInt?_intToString]

/-- Extracting `time` from an encoded point's children yields its
timestamp. -/
theorem childInt_time_encoded (pe pt : Option Int) (px : List (String × String)) :
    childInt "time" (optIntElem "ele" pe ++ (optIntElem "time" pt ++ optExts px)) = pt := by
  cases pe <;> cases pt <;> cases px <;>
    simp [childInt, optIntElem, optExts, textOf1, strToInt?_intToString]

/-- Decoding the encoded extension pairs recovers them. -/
theorem filterMap_extPair_extKid (l : List (String × String)) :
    List.filterMap extPair? (l.map extKid) = l := by
  induction l with
  | nil => rfl
  | cons kv t ih =>
    obtain ⟨k, v⟩ := kv
    simp [extKid, extPair?, ih]

/-- Composed form of `filterMap_extPair_extKid`, matching the simp normal
form after `List.filterMap_map`. -/
theorem filterMap_extPair_comp_extKid (l : List (String × String)) :
    List.filterMap (extPair? ∘ extKid) l = l := by
  rw [← List.filterMap_map]
  exact filterMap_extPair_extKid l

/-- Extracting `extensions` from an encoded point's children yields its
bag. -/
theorem childExts_encoded (pe pt : Option Int) (px : List (String × String)) :
    childExts (optIntElem "ele" pe ++ (optIntElem "time" pt ++ optExts px)) = px := by
  cases pe <;> cases pt <;> cases px <;>
    simp [childExts, optIntElem, optExts, filterMap_extPair_extKid,
      filterMap_extPair_comp_extKid] <;>
    (rw [← List.map_cons]; exact filterMap_extPair_extKid _)

/-- Decoding an encoded point recovers it exactly, for any element tag. -/
theorem decodePoint_encodePoint (tag : String) (p : Point) :
    decodePoint (encodePoint tag p) = .ok p := by
  obtain ⟨la, lo, pe, pt, px⟩ := p
  simp [decodePoint, encodePoint, findAttr, strToInt?_intToString,
    childInt_ele_encoded, childInt_time_encoded, childExts_encoded]

/-- `childStr` skips a prefix of children with other tags. -/
theorem childStr_skip (tag : String) :
    ∀ (l₁ l₂ : List Xml), (∀ x ∈ l₁, headTag x ≠ some tag) →
      childStr tag (l₁ ++ l₂) = childStr tag l₂ := by
  intro l₁
  induction l₁ with
  | nil => intro l₂ _; rfl
  | cons x l₁ ih =>
    intro l₂ h
    cases x with
    | elem t a kids =>
      have ht : t ≠ tag := by
        intro rfl'
        exact h _ (List.mem_cons_self _ _) (by rw [rfl']; rfl)
      simp only [List.cons_append, childStr, if_neg ht]
      exact ih l₂ (fun y hy => h y (List.mem_cons_of_mem _ hy))
    | text s =>
      simp only [List.cons_append, childStr]
      exact ih l₂ (fun y hy => h y (List.mem_cons_of_mem _ hy))

/-- `childStr` finds nothing in a list of children with other tags. -/
theorem childStr_none (tag : String) (l : List Xml)
    (h : ∀ x ∈ l, headTag x ≠ some tag) : childStr tag l = none := by
  have := childStr_skip tag l [] h
  simpa using this

/-- `childInt` skips a prefix of children with other tags. -/
theorem childInt_skip (tag : String) :
    ∀ (l₁ l₂ : List Xml), (∀ x ∈ l₁, headTag x ≠ some tag) →
      childInt tag (l₁ ++ l₂) = childInt tag l₂ := by
  intro l₁
  induction l₁ with
  | nil => intro l₂ _; rfl
  | cons x l₁ ih =>
    intro l₂ h
    cases x with
    | elem t a kids =>
      have ht : t ≠ tag := by
        intro rfl'
        exact h _ (List.mem_cons_self _ _) (by rw [rfl']; rfl)
      simp only [List.cons_append, childInt, if_neg ht]
      exact ih l₂ (fun y hy => h y (List.mem_cons_of_mem _ hy))
    | text s =>
      simp only [List.cons_append, childInt]
      exact ih l₂ (fun y hy => h y (List.mem_cons_of_mem _ hy))

/-- `childExts` skips a prefix of children that are not `extensions`. -/
theorem childExts_skip :
    ∀ (l₁ l₂ : List Xml), (∀ x ∈ l₁, headTag x ≠ some "extensions") →
      childExts (l₁ ++ l₂) = childExts l₂ := by
  intro l₁
  induction l₁ with
  | nil => intro l₂ _; rfl
  | cons x l₁ ih =>
    intro l₂ h
    cases x with
    | elem t a kids =>
      have ht : t ≠ "extensions" := by
        intro rfl'
        exact h _ (List.mem_cons_self _ _) (by rw [rfl']; rfl)
      simp only [List.cons_append, childExts, if_neg ht]
      exact ih l₂ (fun y hy => h y (List.mem_cons_of_mem _ hy))
    | text s =>
      simp only [List.cons_append, childExts]
      exact ih l₂ (fun y hy => h y (List.mem_cons_of_mem _ hy))

/-- `findElemKids` skips a prefix of children with other tags. -/
theorem findElemKids_skip (tag : String) :
    ∀ (l₁ l₂ : List Xml), (∀ x ∈ l₁, headTag x ≠ some tag) →
      findElemKids tag (l₁ ++ l₂) = findElemKids tag l₂ := by
  intro l₁
  induction l₁ with
  | nil => intro l₂ _; rfl
  | cons x l₁ ih =>
    intro l₂ h
    cases x with
    | elem t a kids =>
      have ht : t ≠ tag := by
        intro rfl'
        exact h _ (List.mem_cons_self _ _) (by rw [rfl']; rfl)
      simp only [List.cons_append, findElemKids, if_neg ht]
      exact ih l₂ (fun y hy => h y (List.mem_cons_of_mem _ hy))
    | text s =>
      simp only [List.cons_append, findElemKids]
      exact ih l₂ (fun y hy => h y (List.mem_cons_of_mem _ hy))

/-- `elemsTagged` distributes over append. -/
theorem elemsTagged_append (tag : String) (l₁ l₂ : List Xml) :
    elemsTagged tag (l₁ ++ l₂) = elemsTagged tag l₁ ++ elemsTagged tag l₂ := by
  simp [elemsTagged, List.filter_append]

/-- `elemsTagged` drops a list of children with other tags entirely. -/
theorem elemsTagged_none (tag : String) (l : List Xml)
    (h : ∀ x ∈ l, headTag x ≠ some tag) : elemsTagged tag l = [] := by
  rw [elemsTagged, List.filter_eq_nil_iff]
  intro x hx
  simp only [decide_eq_true_eq]
  exact h x hx

/-- `elemsTagged` keeps a list of children with exactly its tag. -/
theorem elemsTagged_all (tag : String) (l : List Xml)
    (h : ∀ x ∈ l, headTag x = some tag) : elemsTagged tag l = l := by
  rw [elemsTagged, List.filter_eq_self]
  intro x hx
  simp only [decide_eq_true_eq]
  exact h x hx

/-- Decoding an encoded list element-by-element recovers the list. -/
theorem decodeAll_map {A : Type} (f : Xml → Except GpxErr A) (g : A → Xml) :
    ∀ (l : List A), (∀ y ∈ l, f (g y) = .ok y) → decodeAll f (l.map g) = .ok l := by
  intro l
  induction l with
  | nil => intro _; rfl
  | cons y l ih =>
    intro h
    simp only [List.map_cons, decodeAll, h y (List.mem_cons_self _ _),
      ih (fun z hz => h z (List.mem_cons_of_mem y hz))]

/-- Decoding an encoded segment recovers its points. -/
theorem decodeSeg_encodeSeg (pts : List Point) : decodeSeg (encodeSeg pts) = .ok pts := by
  simp only [decodeSeg, encodeSeg]
  rw [elemsTagged_all "trkpt" (pts.map (encodePoint "trkpt"))
      (by intro x hx; obtain ⟨p, -, rfl⟩ := List.mem_map.mp hx; rfl)]
  exact decodeAll_map decodePoint (encodePoint "trkpt") pts
    (fun y _ => decodePoint_encodePoint "trkpt" y)

/-- Decoding an encoded route recovers its points. -/
theorem decodeRte_encodeRte (pts : List Point) : decodeRte (encodeRte pts) = .ok pts := by
  simp only [decodeRte, encodeRte]
  rw [elemsTagged_all "rtept" (pts.map (encodePoint "rtept"))
      (by intro x hx; obtain ⟨p, -, rfl⟩ := List.mem_map.mp hx; rfl)]
  exact decodeAll_map decodePoint (encodePoint "rtept") pts
    (fun y _ => decodePoint_encodePoint "rtept" y)

/-- Decoding encoded metadata children recovers the metadata record. -/
theorem decodeMetadata_encoded (md : Metadata) :
    decodeMetadata (optStrElem "name" md.name ++ (optStrElem "desc" md.desc ++
      (optStrElem "author" md.author ++ optIntElem "time" md.time))) = md := by
  obtain ⟨n, ds, au, tm⟩ := md
  cases n <;> cases ds <;> cases au <;> cases tm <;>
    simp [decodeMetadata, childStr, childInt, optStrElem, optIntElem, textOf1,
      strToInt?_intToString]

/-- Decoding an encoded track recovers it. -/
theorem decodeTrk_encodeTrk (t : Track) : decodeTrk (encodeTrk t) = .ok t := by
  obtain ⟨n, ty, segs⟩ := t
  have hsegtags : ∀ x ∈ segs.map encodeSeg, headTag x = some "trkseg" := by
    intro x hx; obtain ⟨s, -, rfl⟩ := List.mem_map.mp hx; rfl
  have hsegskip : ∀ x ∈ segs.map encodeSeg, headTag x ≠ some "name" := by
    intro x hx h
    rw [hsegtags x hx] at h
    exact absurd (Option.some.inj h) (by decide)
  have hsegskip2 : ∀ x ∈ segs.map encodeSeg, headTag x ≠ some "type" := by
    intro x hx h
    rw [hsegtags x hx] at h
    exact absurd (Option.some.inj h) (by decide)
  have hnone1 : elemsTagged "trkseg" (optStrElem "name" n) = [] := by
    apply elemsTagged_none
    intro x hx
    cases n with
    | none => simp [optStrElem] at hx
    | some s =>
      simp only [optStrElem, List.mem_singleton] at hx
      subst hx
      intro h
      exact absurd (Option.some.inj h) (by decide)
  have hnone2 : elemsTagged "trkseg" (optStrElem "type" ty) = [] := by
    apply elemsTagged_none
    intro x hx
    cases ty with
    | none => simp [optStrElem] at hx
    | some s =>
      simp only [optStrElem, List.mem_singleton] at hx
      subst hx
      intro h
      exact absurd (Option.some.inj h) (by decide)
  have htagged : elemsTagged "trkseg"
      (optStrElem "name" n ++ optStrElem "type" ty ++ segs.map encodeSeg)
      = segs.map encodeSeg := by
    rw [elemsTagged_append, elemsTagged_append, hnone1, hnone2,
      elemsTagged_all "trkseg" (segs.map encodeSeg) hsegtags]
    rfl
  have hname : childStr "name"
      (optStrElem "name" n ++ optStrElem "type" ty ++ segs.map encodeSeg) = n := by
    have hmap := childStr_none "name" (segs.map encodeSeg) hsegskip
    cases n <;> cases ty <;>
      simp [childStr, optStrElem, textOf1, hmap]
  have hty : childStr "type"
      (optStrElem "name" n ++ optStrElem "type" ty ++ segs.map encodeSeg) = ty := by
    have hmap := childStr_none "type" (segs.map encodeSeg) hsegskip2
    cases n <;> cases ty <;>
      simp [childStr, optStrElem, textOf1, hmap]
  simp only [decodeTrk, encodeTrk, htagged, hname, hty,
    decodeAll_map decodeSeg encodeSeg segs (fun y _ => decodeSeg_encodeSeg y)]

/-- `findElemKids` finds nothing among children with other tags. -/
theorem findElemKids_none (tag : String) (l : List Xml)
    (h : ∀ x ∈ l, headTag x ≠ some tag) : findElemKids tag l = none := by
  have := findElemKids_skip tag l [] h
  simpa using this

/-- All children of a uniformly-tagged list avoid any other tag. -/
theorem headTag_all_ne (t₁ t₂ : String) (l : List Xml)
    (hl : ∀ x ∈ l, headTag x = some t₁) (hne : t₁ ≠ t₂) :
    ∀ x ∈ l, headTag x ≠ some t₂ := by
  intro x hx h
  rw [hl x hx] at h
  exact hne (Option.some.inj h)

/-- Decoding an encoded document recovers it exactly: the GPX codec
round-trips structurally. -/
theorem decodeGpx_encodeGpx (d : GpxDoc) : decodeGpx (encodeGpx d) = .ok d := by
  obtain ⟨v, c, md, wpts, rtes, trks, exts⟩ := d
  have hmdtags : ∀ x ∈ optMeta md, headTag x = some "metadata" := by
    intro x hx
    cases md with
    | none => simp [optMeta] at hx
    | some m =>
      simp only [optMeta, List.mem_singleton] at hx
      subst hx
      rfl
  have hwtags : ∀ x ∈ wpts.map (encodePoint "wpt"), headTag x = some "wpt" := by
    intro x hx; obtain ⟨p, -, rfl⟩ := List.mem_map.mp hx; rfl
  have hrtags : ∀ x ∈ rtes.map encodeRte, headTag x = some "rte" := by
    intro x hx; obtain ⟨p, -, rfl⟩ := List.mem_map.mp hx; rfl
  have httags : ∀ x ∈ trks.map encodeTrk, headTag x = some "trk" := by
    intro x hx; obtain ⟨p, -, rfl⟩ := List.mem_map.mp hx; rfl
  have hetags : ∀ x ∈ optExts exts, headTag x = some "extensions" := by
    intro x hx
    cases exts with
    | nil => simp [optExts] at hx
    | cons kv r =>
      simp only [optExts, List.mem_singleton] at hx
      subst hx
      rfl
  have hW : elemsTagged "wpt" (optMeta md ++ wpts.map (encodePoint "wpt") ++
      rtes.map encodeRte ++ trks.map encodeTrk ++ optExts exts)
      = wpts.map (encodePoint "wpt") := by
    rw [elemsTagged_append, elemsTagged_append, elemsTagged_append, elemsTagged_append,
      elemsTagged_none _ _ (headTag_all_ne "metadata" "wpt" _ hmdtags (by decide)),
      elemsTagged_all _ _ hwtags,
      elemsTagged_none _ _ (headTag_all_ne "rte" "wpt" _ hrtags (by decide)),
      elemsTagged_none _ _ (headTag_all_ne "trk" "wpt" _ httags (by decide)),
      elemsTagged_none _ _ (headTag_all_ne "extensions" "wpt" _ hetags (by decide))]
    simp
  have hR : elemsTagged "rte" (optMeta md ++ wpts.map (encodePoint "wpt") ++
      rtes.map encodeRte ++ trks.map encodeTrk ++ optExts exts)
      = rtes.map encodeRte := by
    rw [elemsTagged_append, elemsTagged_append, elemsTagged_append, elemsTagged_append,
      elemsTagged_none _ _ (headTag_all_ne "metadata" "rte" _ hmdtags (by decide)),
      elemsTagged_none _ _ (headTag_all_ne "wpt" "rte" _ hwtags (by decide)),
      elemsTagged_all _ _ hrtags,
      elemsTagged_none _ _ (headTag_all_ne "trk" "rte" _ httags (by decide)),
      elemsTagged_none _ _ (headTag_all_ne "extensions" "rte" _ hetags (by decide))]
    simp
  have hT : elemsTagged "trk" (optMeta md ++ wpts.map (encodePoint "wpt") ++
      rtes.map encodeRte ++ trks.map encodeTrk ++ optExts exts)
      = trks.map encodeTrk := by
    rw [elemsTagged_append, elemsTagged_append, elemsTagged_append, elemsTagged_append,
      elemsTagged_none _ _ (headTag_all_ne "metadata" "trk" _ hmdtags (by decide)),
      elemsTagged_none _ _ (headTag_all_ne "wpt" "trk" _ hwtags (by decide)),
      elemsTagged_none _ _ (headTag_all_ne "rte" "trk" _ hrtags (by decide)),
      elemsTagged_all _ _ httags,
      elemsTagged_none _ _ (headTag_all_ne "extensions" "trk" _ hetags (by decide))]
    simp
  have hMD : (findElemKids "metadata" (optMeta md ++ wpts.map (encodePoint "wpt") ++
      rtes.map encodeRte ++ trks.map encodeTrk ++ optExts exts)).map decodeMetadata
      = md := by
    cases md with
    | none =>
      rw [findElemKids_none "metadata" _ ?_]
      · rfl
      · intro x hx
        simp only [optMeta, List.nil_append, List.mem_append] at hx
        rcases hx with ((hx | hx) | hx) | hx
        · exact headTag_all_ne "wpt" "metadata" _ hwtags (by decide) x hx
        · exact headTag_all_ne "rte" "metadata" _ hrtags (by decide) x hx
        · exact headTag_all_ne "trk" "metadata" _ httags (by decide) x hx
        · exact headTag_all_ne "extensions" "metadata" _ hetags (by decide) x hx
    | some m =>
      rw [show (optMeta (some m) ++ wpts.map (encodePoint "wpt") ++
          rtes.map encodeRte ++ trks.map encodeTrk ++ optExts exts)
          = encodeMetadata m :: (wpts.map (encodePoint "wpt") ++
            rtes.map encodeRte ++ trks.map encodeTrk ++ optExts exts) by
        simp [optMeta]]
      rw [encodeMetadata, findElemKids]
      simp only [if_pos rfl]
      simp [decodeMetadata_encoded m]
  have hE : childExts (optMeta md ++ wpts.map (encodePoint "wpt") ++
      rtes.map encodeRte ++ trks.map encodeTrk ++ optExts exts) = exts := by
    rw [show (optMeta md ++ wpts.map (encodePoint "wpt") ++
      rtes.map encodeRte ++ trks.map encodeTrk ++ optExts exts)
      = (optMeta md ++ wpts.map (encodePoint "wpt") ++
        rtes.map encodeRte ++ trks.map encodeTrk) ++ optExts exts by simp]
    rw [childExts_skip _ _ ?_]
    · cases exts with
      | nil => rfl
      | cons kv r =>
        show childExts [Xml.elem "extensions" [] ((kv :: r).map extKid)] = kv :: r
        rw [childExts]
        simp only [if_pos rfl]
        exact filterMap_extPair_extKid (kv :: r)
    · intro x hx
      simp only [List.mem_append] at hx
      rcases hx with ((hx | hx) | hx) | hx
      · exact headTag_all_ne "metadata" "extensions" _ hmdtags (by decide) x hx
      · exact headTag_all_ne "wpt" "extensions" _ hwtags (by decide) x hx
      · exact headTag_all_ne "rte" "extensions" _ hrtags (by decide) x hx
      · exact headTag_all_ne "trk" "extensions" _ httags (by decide) x hx
  show decodeGpx (Xml.elem "gpx" [("version", v), ("creator", c)] _) = _
  rw [decodeGpx]
  simp only [findAttr, if_pos rfl]
  rw [hW, hR, hT,
    decodeAll_map decodePoint (encodePoint "wpt") wpts
      (fun y _ => decodePoint_encodePoint "wpt" y),
    decodeAll_map decodeRte encodeRte rtes (fun y _ => decodeRte_encodeRte y),
    decodeAll_map decodeTrk encodeTrk trks (fun y _ => decodeTrk_encodeTrk y)]
  simp only [List.append_assoc] at hMD hE
  simp [hMD, hE]

/-- C1: decoding a serialized GPX 1.1 document and re-encoding it is the
identity: decode of encode recovers the document exactly (hence point
count, point ordering, and every coordinate/elevation/time value — exact,
since coordinates are fixed-point micro-degrees), and since encoding is a
deterministic function with fixed attribute/element order,
`encode (decode b)` reproduces `b` for any serialized form `b` produced by
the encoder (the codec's canonical, comment-free serializations). -/
theorem gpx_codec_roundtrip (d : GpxDoc) (b : Xml) (hb : b = encodeGpx d) :
    decodeGpx b = .ok d ∧
    (decodeGpx b).map GpxDoc.allPoints = .ok d.allPoints ∧
    (decodeGpx b).map encodeGpx = .ok b := by
  subst hb
  refine ⟨decodeGpx_encodeGpx d, ?_, ?_⟩ <;> rw [decodeGpx_encodeGpx d] <;> rfl

/-- A demonstration document exercising every encoded section: metadata,
a waypoint with elevation and extensions, a route, two tracks with two
segments, timestamps, negative coordinates, and document extensions. -/
def demoDoc : GpxDoc :=
  ⟨"1.1", "ezGPX",
    some ⟨some "morning run", none, some "runner", some 1700000000⟩,
    [⟨45123456, -3987654, some 215000, some 1700000100, [("hr", "121")]⟩],
    [[⟨1, 2, none, none, []⟩, ⟨3, 4, none, none, []⟩]],
    [⟨some "t1", some "running",
      [[⟨-45000000, 179999999, some (-12000), some 1700000200, []⟩,
        ⟨0, 0, none, some 1700000300, []⟩], [⟨7, 8, some 0, none, []⟩]]⟩,
     ⟨none, none, [[]]⟩],
    [("creator-tool", "ezgpx")]⟩

/-- C1 witness: the round trip at the concrete demonstration document. -/
theorem gpx_codec_roundtrip_witness :
    decodeGpx (encodeGpx demoDoc) = .ok demoDoc ∧
    (decodeGpx (encodeGpx demoDoc)).map GpxDoc.allPoints = .ok demoDoc.allPoints ∧
    (decodeGpx (encodeGpx demoDoc)).map encodeGpx = .ok (encodeGpx demoDoc) :=
  gpx_codec_roundtrip demoDoc (encodeGpx demoDoc) rfl

/-- C4: a document without a `version` attribute fails with `ParseError`
for every caller, whether or not schema validation was requested; a
document that parses structurally but violates the schema fails with
`SchemaError` when and only when validation is requested, and decodes
successfully when it is not; validation never blocks an otherwise valid
decode. -/
theorem decode_error_policy (check : Bool) (attrs : List (String × String))
    (kids : List Xml) (x : Xml) (d : GpxDoc) :
    (findAttr "version" attrs = none →
      decodeGpxChecked check (Xml.elem "gpx" attrs kids)
        = .error (.parseErr "missing version attribute")) ∧
    (decodeGpx x = .ok d → schemaValid x = false →
      decodeGpxChecked false x = .ok d ∧
      decodeGpxChecked true x
        = .error (.schemaErr "gpx.xsd" "document fails the GPX topology schema")) ∧
    (decodeGpx x = .ok d → schemaValid x = true → decodeGpxChecked check x = .ok d) := by
  refine ⟨?_, ?_, ?_⟩
  · intro h
    simp [decodeGpxChecked, decodeGpx, h]
  · intro hok hbad
    exact ⟨by simp [decodeGpxChecked, hok], by simp [decodeGpxChecked, hok, hbad]⟩
  · intro hok hgood
    simp [decodeGpxChecked, hok, hgood]

/-- A structurally decodable document with a schema-invalid nested element
(`<junk/>` inside a track point). -/
def junkXml : Xml :=
  Xml.elem "gpx" [("version", "1.1"), ("creator", "ez")]
    [Xml.elem "trk" []
      [Xml.elem "trkseg" []
        [Xml.elem "trkpt" [("lat", "1"), ("lon", "2")] [Xml.elem "junk" [] []]]]]

/-- The structural reading of `junkXml`: the unknown nested element is
ignored. -/
def junkDoc : GpxDoc :=
  ⟨"1.1", "ez", none, [], [], [⟨none, none, [[⟨1, 2, none, none, []⟩]]⟩], []⟩

/-- C4 witness: missing `version` is a `ParseError` even with checking on;
the malformed-nested-element document decodes structurally without
validation and fails with `SchemaError` with validation. -/
theorem decode_error_policy_witness :
    decodeGpxChecked true (Xml.elem "gpx" [("creator", "ez")] [])
      = .error (.parseErr "missing version attribute") ∧
    decodeGpxChecked false junkXml = .ok junkDoc ∧
    decodeGpxChecked true junkXml
      = .error (.schemaErr "gpx.xsd" "document fails the GPX topology schema") :=
  ⟨(decode_error_policy true [("creator", "ez")] [] junkXml junkDoc).1 rfl,
   ((decode_error_policy true [("creator", "ez")] [] junkXml junkDoc).2.1 rfl rfl).1,
   ((decode_error_policy true [("creator", "ez")] [] junkXml junkDoc).2.1 rfl rfl).2⟩

/-- A document whose latitude (91°) violates the GPX schema while
remaining perfectly serializable and re-parseable. -/
def badLatDoc : GpxDoc :=
  ⟨"1.1", "ezGPX", none, [⟨91000000, 0, none, none, []⟩], [], [], []⟩

/-- C5 counterexample: with schema checking enabled, `to_gpx` on a
schema-invalid document returns normally with the Boolean `false` — the
validation failure is reported through the ordinary return value (as the
repository documentation `to_gpx(...) == False` shows), and no
`SchemaError` value is produced by the write path. -/
theorem to_gpx_schema_failure_returns_false :
    (toGpx true badLatDoc).2 = false ∧
    schemaValid (encodeGpx badLatDoc) = false ∧
    (toGpx false badLatDoc).2 = true := by
  refine ⟨?_, ?_, ?_⟩ <;> rfl

/-- C5 amended: `to_gpx` always returns the serialized document together
with a Boolean verdict; the verdict is `false` exactly when schema
checking was requested and the written form fails validation — never an
error value. -/
theorem to_gpx_check_reports_bool (check : Bool) (d : GpxDoc) :
    (toGpx check d).1 = encodeGpx d ∧
    ((toGpx check d).2 = false ↔ (check = true ∧ schemaValid (encodeGpx d) = false)) := by
  refine ⟨rfl, ?_⟩
  cases check <;> cases h : schemaValid (encodeGpx d) <;> simp [toGpx, h]

/-- A found KML entry is an archive member with the `.kml` extension. -/
theorem findKmlEntry_mem :
    ∀ (archive : List (String × Xml)) (n : String) (c : Xml),
      findKmlEntry archive = some (n, c) →
      (n, c) ∈ archive ∧ hasKmlExt n = true := by
  intro archive
  induction archive with
  | nil => intro n c h; simp [findKmlEntry] at h
  | cons e rest ih =>
    intro n c h
    obtain ⟨en, ec⟩ := e
    simp only [findKmlEntry] at h
    by_cases he : hasKmlExt en
    · rw [if_pos he] at h
      simp only [Option.some_inj, Prod.mk.injEq] at h
      obtain ⟨rfl, rfl⟩ := h
      exact ⟨List.mem_cons_self _ _, he⟩
    · rw [if_neg he] at h
      obtain ⟨hmem, hext⟩ := ih n c h
      exact ⟨List.mem_cons_of_mem _ hmem, hext⟩

/-- C10: a successful KMZ decode picks one `.kml` entry of the archive,
its event trace is exactly the temporary-KML write into the working
directory followed by the delegation to the KML decoder (in that order),
and the resulting document is built from that entry's content alone; an
archive without a KML entry fails with `ParseError`. -/
theorem kmz_decode_effects (archive : List (String × Xml)) (d : GpxDoc)
    (evs : List KmzEvent) :
    (decodeKmz archive = .ok (d, evs) →
      ∃ n c, (n, c) ∈ archive ∧ hasKmlExt n = true ∧
        findKmlEntry archive = some (n, c) ∧
        evs = [KmzEvent.fsWriteTempKml "." n, KmzEvent.delegateKmlDecode n] ∧
        d = decodeKml c) ∧
    (findKmlEntry archive = none →
      decodeKmz archive = .error (.parseErr "no KML entry in KMZ archive")) := by
  constructor
  · intro h
    cases hf : findKmlEntry archive with
    | none => rw [decodeKmz, hf] at h; cases h
    | some pr =>
      obtain ⟨n, c⟩ := pr
      rw [decodeKmz, hf] at h
      simp only [Except.ok.injEq, Prod.mk.injEq] at h
      obtain ⟨rfl, rfl⟩ := h
      obtain ⟨hmem, hext⟩ := findKmlEntry_mem archive n c hf
      refine ⟨n, c, hmem, hext, ?_, ?_, ?_⟩ <;> first | exact hf | rfl
  · intro hf
    rw [decodeKmz, hf]

/-- A demonstration KMZ archive: a style entry without the `.kml`
extension, then the KML document. -/
def demoKml : Xml :=
  Xml.elem "kml" []
    [Xml.elem "name" [] [Xml.text "trip"],
     Xml.elem "style" [] [Xml.text "ignored"],
     Xml.elem "coordinate" [("lat", "10"), ("lon", "20")] [],
     Xml.elem "coordinate" [("lat", "11"), ("lon", "21")] []]

/-- The demonstration archive. -/
def demoKmz : List (String × Xml) :=
  [("style.css", Xml.text "body"), ("doc.kml", demoKml)]

/-- C10 witness: the concrete archive decodes with exactly the
temporary-file write followed by the KML delegation, and the document is
the KML entry's GPS data. -/
theorem kmz_decode_effects_witness :
    decodeKmz demoKmz
      = .ok (decodeKml demoKml,
          [KmzEvent.fsWriteTempKml "." "doc.kml",
           KmzEvent.delegateKmlDecode "doc.kml"]) ∧
    (∃ n c, (n, c) ∈ demoKmz ∧ hasKmlExt n = true ∧
      findKmlEntry demoKmz = some (n, c) ∧
      [KmzEvent.fsWriteTempKml "." "doc.kml", KmzEvent.delegateKmlDecode "doc.kml"]
        = [KmzEvent.fsWriteTempKml "." n, KmzEvent.delegateKmlDecode n] ∧
      decodeKml demoKml = decodeKml c) :=
  ⟨rfl, (kmz_decode_effects demoKmz (decodeKml demoKml)
      [KmzEvent.fsWriteTempKml "." "doc.kml",
       KmzEvent.delegateKmlDecode "doc.kml"]).1 rfl⟩

end EzGPX
